import Mathlib

/-!
# Verification of the `bspwm-info` line parser

A shallow embedding of `src/lib.rs` from the `bspwm-info` crate, together
with theorems about the behaviour of its `parse_line` function and the
`WmInfo` iterator's `next` method.

The Rust parser can panic (`unwrap()` on `None`, out-of-bounds string
slicing).  Panics are modelled by returning `none`: a function of the
embedding returns `some v` exactly when the Rust code returns value `v`
without panicking, and `none` exactly when the Rust code panics.

Strings are modelled as Lean `String`s (sequences of `Char`s); the Rust
code slices by byte index, so wherever the Rust code would panic on a
byte index that is not a character boundary the embedding checks
`Char.utf8Size` explicitly.
-/

set_option autoImplicit false

/-- `Layout` enumeration from the source: `enum Layout { Tiling, Monocle }`. -/
inductive Layout where
  | Tiling
  | Monocle
deriving DecidableEq

/-- `Desktop` record from the source, fields in source order:
`name`, `focused`, `occupied`, `urgent`. -/
structure Desktop where
  name : String
  focused : Bool
  occupied : Bool
  urgent : Bool
deriving DecidableEq

/-- `Monitor` record from the source, fields in source order:
`name`, `desktops`, `focused`, `layout`. -/
structure Monitor where
  name : String
  desktops : List Desktop
  focused : Bool
  layout : Option Layout
deriving DecidableEq

/-- `WmRoot` record from the source: the list of monitors of one snapshot. -/
structure WmRoot where
  monitors : List Monitor
deriving DecidableEq

/-- Embedding of Rust `str::split(":")` on a character list: splits on every
colon, keeping empty pieces; an empty input yields one empty piece, exactly
as Rust `"".split(":")` yields `[""]`. -/
def splitColon : List Char → List (List Char)
  | [] => [[]]
  | c :: cs =>
    if c = ':' then [] :: splitColon cs
    else
      match splitColon cs with
      | [] => [[c]]
      | s :: ss => (c :: s) :: ss

/-- Embedding of `monitors.last_mut()` followed by a mutation `f`:
`none` models the panic of `.unwrap()` when the vector is empty. -/
def modifyLast (f : Monitor → Monitor) : List Monitor → Option (List Monitor)
  | [] => none
  | [m] => some [f m]
  | m :: m2 :: ms => (modifyLast f (m2 :: ms)).map (fun r => m :: r)

/-- Embedding of the layout computation `match &section[1..2] { "T" => …, "M" => …, _ => None }`.
`none` models the slicing panic: byte range `1..2` is out of bounds when the
payload is empty, and not a character boundary when the payload's first
character occupies more than one byte.  `some lo` is the layout value the
Rust code computes. -/
def layoutCode (payload : List Char) : Option (Option Layout) :=
  match payload with
  | [] => none
  | c :: _ =>
    if c.utf8Size = 1 then
      some (if c = 'T' then some Layout.Tiling
            else if c = 'M' then some Layout.Monocle
            else none)
    else none

/-- Embedding of one iteration of the `for section in line[1..].split(":")`
loop body of `parse_line`: `s` is the section's characters, `monitors` the
vector built so far.  `none` models a panic (`section.chars().nth(0).unwrap()`
on an empty section, `monitors.last_mut().unwrap()` with no monitor, or the
layout slicing panic). -/
def processSection (monitors : List Monitor) (s : List Char) : Option (List Monitor) :=
  match s with
  | [] => none
  | input :: payload =>
    if input = 'M' ∨ input = 'm' then
      some (monitors ++ [{ name := String.mk payload, desktops := [],
                           focused := input.isUpper, layout := none }])
    else if input = 'O' ∨ input = 'o' then
      modifyLast (fun m => { m with desktops := m.desktops ++
        [{ name := String.mk payload, focused := input.isUpper,
           occupied := true, urgent := false }] }) monitors
    else if input = 'F' ∨ input = 'f' then
      modifyLast (fun m => { m with desktops := m.desktops ++
        [{ name := String.mk payload, focused := input.isUpper,
           occupied := false, urgent := false }] }) monitors
    else if input = 'U' ∨ input = 'u' then
      modifyLast (fun m => { m with desktops := m.desktops ++
        [{ name := String.mk payload, focused := input.isUpper,
           occupied := true, urgent := true }] }) monitors
    else if input = 'L' then
      match layoutCode payload with
      | none => none
      | some lo => modifyLast (fun m => { m with layout := lo }) monitors
    else
      some monitors

/-- The whole `for` loop of `parse_line`, folded over the section list. -/
def processSections (monitors : List Monitor) : List (List Char) → Option (List Monitor)
  | [] => some monitors
  | s :: ss =>
    match processSection monitors s with
    | none => none
    | some ms => processSections ms ss

/-- Embedding of `fn parse_line(line: &str) -> WmRoot`.  The Rust function
discards the first character via the byte slice `line[1..]` (which panics on
an empty line or when the first character occupies more than one byte),
splits the remainder on `:` and folds the loop body over the sections.
`none` models any panic. -/
def parse_line (line : String) : Option WmRoot :=
  match line.data with
  | [] => none
  | c :: rest =>
    if c.utf8Size = 1 then
      (processSections [] (splitColon rest)).map WmRoot.mk
    else none

/-- Result of one `next()` call of the `WmInfo` iterator:
`finished` is Rust `None` (end of stream), `ioError` is `Some(Err(e))`,
`item r` is `Some(Ok(parse_line(&buffer)))` where `r = none` models a panic
inside `parse_line`. -/
inductive NextResult where
  | finished
  | ioError
  | item (r : Option WmRoot)
deriving DecidableEq

/-- Embedding of `WmInfo::next`: the read result is `none` for an I/O error
and `some buf` for a successful `read_line` that left `buf` in the freshly
cleared buffer (the line terminator included, as `read_line` keeps it).
The buffer is handed to `parse_line` unchanged whenever a positive number
of bytes was read. -/
def wmNext (readResult : Option String) : NextResult :=
  match readResult with
  | none => NextResult.ioError
  | some buf =>
    if buf.length > 0 then NextResult.item (parse_line buf)
    else NextResult.finished

/-- Specification-side counting predicate: does a section's first character
carry the monitor marker `M` or `m`? -/
def monitorMarker (s : List Char) : Bool :=
  s.head? == some 'M' || s.head? == some 'm'

/-- Specification-side description of the desktop denoted by a
desktop-marker section (`O`/`o` occupied, `F`/`f` free, `U`/`u` urgent and
occupied, case giving the focus flag, payload giving the name), and `none`
for every other section. -/
def sectionDesktop (s : List Char) : Option Desktop :=
  match s with
  | [] => none
  | c :: p =>
    if c = 'O' ∨ c = 'o' then some (Desktop.mk (String.mk p) c.isUpper true false)
    else if c = 'F' ∨ c = 'f' then some (Desktop.mk (String.mk p) c.isUpper false false)
    else if c = 'U' ∨ c = 'u' then some (Desktop.mk (String.mk p) c.isUpper true true)
    else none

/-- Specification-side grouping of a section list by monitor markers:
`groupsAux ss = (cur, gs)` where `cur` is the run of sections before the
first monitor-marker section of `ss` and `gs` has one entry per
monitor-marker section, namely the run of sections strictly after it and
before the next monitor-marker section (or the end of the list). -/
def groupsAux : List (List Char) → List (List Char) × List (List (List Char))
  | [] => ([], [])
  | s :: ss =>
    let r := groupsAux ss
    if monitorMarker s then ([], r.1 :: r.2) else (s :: r.1, r.2)

/-- Helper for stating how the parser state evolves column-wise: appends
`ds` to the last entry of a list of desktop lists (and returns `[]`
unchanged). -/
def extendLast : List (List Desktop) → List Desktop → List (List Desktop)
  | [], _ => []
  | [l], ds => [l ++ ds]
  | l :: l2 :: ls, ds => l :: extendLast (l2 :: ls) ds

/-! ## Helper lemmas -/

theorem modifyLast_concat (f : Monitor → Monitor) (l : List Monitor) (a : Monitor) :
    modifyLast f (l ++ [a]) = some (l ++ [f a]) := by
  induction l with
  | nil => rfl
  | cons b l ih => cases l <;> simp_all [modifyLast]

theorem modifyLast_some (f : Monitor → Monitor) (ms ms2 : List Monitor)
    (h : modifyLast f ms = some ms2) : ∃ l a, ms = l ++ [a] ∧ ms2 = l ++ [f a] := by
  rcases ms.eq_nil_or_concat with rfl | ⟨l, a, hla⟩
  · simp [modifyLast] at h
  · rw [List.concat_eq_append] at hla
    subst hla
    rw [modifyLast_concat] at h
    exact ⟨l, a, rfl, (Option.some_injective _ h).symm⟩

theorem extendLast_nil_ds : ∀ ls : List (List Desktop), extendLast ls [] = ls
  | [] => rfl
  | [l] => by simp [extendLast]
  | l :: l2 :: ls => by rw [extendLast, extendLast_nil_ds (l2 :: ls)]

theorem extendLast_concat (l0 : List (List Desktop)) (x ds : List Desktop) :
    extendLast (l0 ++ [x]) ds = l0 ++ [x ++ ds] := by
  induction l0 with
  | nil => rfl
  | cons y l0 ih => cases l0 <;> simp_all [extendLast]

theorem extendLast_extendLast (ls : List (List Desktop)) (a : Desktop) (ds : List Desktop) :
    extendLast (extendLast ls [a]) ds = extendLast ls (a :: ds) := by
  rcases ls.eq_nil_or_concat with rfl | ⟨l0, x, hlx⟩
  · rfl
  · rw [List.concat_eq_append] at hlx
    subst hlx
    rw [extendLast_concat, extendLast_concat, extendLast_concat]
    simp

theorem modifyLast_length (f : Monitor → Monitor) (ms ms2 : List Monitor)
    (h : modifyLast f ms = some ms2) : ms2.length = ms.length := by
  obtain ⟨l, a, rfl, rfl⟩ := modifyLast_some f ms ms2 h
  simp

theorem modifyLast_map_desktops (f : Monitor → Monitor) (ds : List Desktop)
    (hf : ∀ m, (f m).desktops = m.desktops ++ ds) (ms ms2 : List Monitor)
    (h : modifyLast f ms = some ms2) :
    ms2.map Monitor.desktops = extendLast (ms.map Monitor.desktops) ds := by
  obtain ⟨l, a, rfl, rfl⟩ := modifyLast_some f ms ms2 h
  simp [extendLast_concat, hf]

/-- Exhaustive case analysis of one loop iteration of `parse_line`: a
successful `processSection` step either appends a monitor, pushes the
desktop described by the section onto the last monitor, rewrites the last
monitor's layout, or leaves the state unchanged. -/
theorem processSection_cases (ms ms2 : List Monitor) (input : Char) (p : List Char)
    (h : processSection ms (input :: p) = some ms2) :
    (monitorMarker (input :: p) = true ∧
      ms2 = ms ++ [Monitor.mk (String.mk p) [] input.isUpper none])
    ∨ (monitorMarker (input :: p) = false ∧ ∃ d0,
        sectionDesktop (input :: p) = some d0 ∧
        modifyLast (fun m => { m with desktops := m.desktops ++ [d0] }) ms = some ms2)
    ∨ (monitorMarker (input :: p) = false ∧ sectionDesktop (input :: p) = none ∧ ∃ lo,
        modifyLast (fun m => { m with layout := lo }) ms = some ms2)
    ∨ (monitorMarker (input :: p) = false ∧ sectionDesktop (input :: p) = none ∧ ms2 = ms) := by
  by_cases hM : input = 'M' ∨ input = 'm'
  · left
    constructor
    · rcases hM with rfl | rfl <;> simp [monitorMarker]
    · simp only [processSection, if_pos hM] at h
      exact (Option.some_injective _ h).symm
  · obtain ⟨hM1, hM2⟩ := not_or.mp hM
    have hmm : monitorMarker (input :: p) = false := by
      simp [monitorMarker, hM1, hM2]
    by_cases hO : input = 'O' ∨ input = 'o'
    · refine Or.inr (Or.inl ⟨hmm, Desktop.mk (String.mk p) input.isUpper true false, ?_, ?_⟩)
      · simp only [sectionDesktop, if_pos hO]
      · simp only [processSection, if_neg hM, if_pos hO] at h
        exact h
    · by_cases hF : input = 'F' ∨ input = 'f'
      · refine Or.inr (Or.inl ⟨hmm, Desktop.mk (String.mk p) input.isUpper false false, ?_, ?_⟩)
        · simp only [sectionDesktop, if_neg hO, if_pos hF]
        · simp only [processSection, if_neg hM, if_neg hO, if_pos hF] at h
          exact h
      · by_cases hU : input = 'U' ∨ input = 'u'
        · refine Or.inr (Or.inl ⟨hmm, Desktop.mk (String.mk p) input.isUpper true true, ?_, ?_⟩)
          · simp only [sectionDesktop, if_neg hO, if_neg hF, if_pos hU]
          · simp only [processSection, if_neg hM, if_neg hO, if_neg hF, if_pos hU] at h
            exact h
        · have hsd : sectionDesktop (input :: p) = none := by
            simp only [sectionDesktop, if_neg hO, if_neg hF, if_neg hU]
          by_cases hL : input = 'L'
          · refine Or.inr (Or.inr (Or.inl ⟨hmm, hsd, ?_⟩))
            simp only [processSection, if_neg hM, if_neg hO, if_neg hF, if_neg hU,
              if_pos hL] at h
            cases hlc : layoutCode p with
            | none => rw [hlc] at h; cases h
            | some lo => rw [hlc] at h; exact ⟨lo, h⟩
          · refine Or.inr (Or.inr (Or.inr ⟨hmm, hsd, ?_⟩))
            simp only [processSection, if_neg hM, if_neg hO, if_neg hF, if_neg hU,
              if_neg hL] at h
            exact (Option.some_injective _ h).symm

/-- A successful run of the whole loop adds one monitor per
monitor-marker section. -/
theorem processSections_length : ∀ (ss : List (List Char)) (ms ms2 : List Monitor),
    processSections ms ss = some ms2 →
    ms2.length = ms.length + ss.countP monitorMarker
  | [], ms, ms2, h => by
    simp only [processSections, Option.some.injEq] at h
    simp [← h]
  | s :: ss, ms, ms2, h => by
    rw [processSections] at h
    cases hs : processSection ms s with
    | none => rw [hs] at h; cases h
    | some ms1 =>
      rw [hs] at h
      have ih := processSections_length ss ms1 ms2 h
      cases s with
      | nil => simp [processSection] at hs
      | cons input p =>
        rcases processSection_cases ms ms1 input p hs with
          ⟨hmark, rfl⟩ | ⟨hmark, d0, _, hml⟩ | ⟨hmark, _, lo, hml⟩ | ⟨hmark, _, rfl⟩
        · simp [List.countP_cons, hmark] at ih ⊢
          omega
        · have hlen := modifyLast_length _ ms ms1 hml
          simp [List.countP_cons, hmark]
          omega
        · have hlen := modifyLast_length _ ms ms1 hml
          simp [List.countP_cons, hmark]
          omega
        · simp [List.countP_cons, hmark]
          omega

/-- A successful run of the whole loop produces, column-wise, exactly the
desktops of the section groups: the sections before the first monitor
marker extend the desktops of the monitor that was already last, and each
following group becomes the desktop list of its own monitor. -/
theorem processSections_desktops : ∀ (ss : List (List Char)) (ms ms2 : List Monitor),
    processSections ms ss = some ms2 →
    ms2.map Monitor.desktops =
      extendLast (ms.map Monitor.desktops)
          ((groupsAux ss).1.filterMap sectionDesktop)
        ++ (groupsAux ss).2.map (fun g => g.filterMap sectionDesktop)
  | [], ms, ms2, h => by
    simp only [processSections, Option.some.injEq] at h
    simp [← h, groupsAux, extendLast_nil_ds]
  | s :: ss, ms, ms2, h => by
    rw [processSections] at h
    cases hs : processSection ms s with
    | none => rw [hs] at h; cases h
    | some ms1 =>
      rw [hs] at h
      have ih := processSections_desktops ss ms1 ms2 h
      cases s with
      | nil => simp [processSection] at hs
      | cons input p =>
        rcases processSection_cases ms ms1 input p hs with
          ⟨hmark, rfl⟩ | ⟨hmark, d0, hsd, hml⟩ | ⟨hmark, hsd, lo, hml⟩ | ⟨hmark, hsd, rfl⟩
        · simp [extendLast_concat] at ih
          simp [groupsAux, hmark, extendLast_nil_ds, ih]
        · have hm1 := modifyLast_map_desktops _ [d0] (fun m => rfl) ms ms1 hml
          rw [hm1, extendLast_extendLast] at ih
          simp [groupsAux, hmark, List.filterMap_cons, hsd, ih]
        · have hm1 := modifyLast_map_desktops _ [] (fun m => by simp) ms ms1 hml
          rw [hm1, extendLast_nil_ds] at ih
          simp [groupsAux, hmark, List.filterMap_cons, hsd, ih]
        · simp [groupsAux, hmark, List.filterMap_cons, hsd, ih]

/-- Splitting a successful `parse_line` into its loop run. -/
theorem parse_line_some (line : String) (root : WmRoot) (h : parse_line line = some root) :
    processSections [] (splitColon line.data.tail) = some root.monitors := by
  obtain ⟨data⟩ := line
  cases data with
  | nil => simp [parse_line] at h
  | cons c rest =>
    have h2 : (if c.utf8Size = 1 then
        (processSections [] (splitColon rest)).map WmRoot.mk else none) = some root := h
    by_cases hc1 : c.utf8Size = 1
    · rw [if_pos hc1] at h2
      obtain ⟨ms2, hms, hr⟩ := Option.map_eq_some'.mp h2
      have : root.monitors = ms2 := by rw [← hr]
      rw [show (String.mk (c :: rest)).data.tail = rest from rfl, this]
      exact hms
    · rw [if_neg hc1] at h2
      cases h2

/-- Every desktop denoted by a desktop-marker section is occupied whenever
it is urgent (the `F`/`f` arm sets `urgent := false`, the other two arms
set `occupied := true`). -/
theorem sectionDesktop_urgent (s : List Char) (d : Desktop)
    (h : sectionDesktop s = some d) : d.urgent = true → d.occupied = true := by
  cases s with
  | nil => simp [sectionDesktop] at h
  | cons c p =>
    simp only [sectionDesktop] at h
    by_cases hO : c = 'O' ∨ c = 'o'
    · rw [if_pos hO] at h
      rw [← Option.some_injective _ h]
      intro _
      rfl
    · rw [if_neg hO] at h
      by_cases hF : c = 'F' ∨ c = 'f'
      · rw [if_pos hF] at h
        rw [← Option.some_injective _ h]
        intro habs
        cases habs
      · rw [if_neg hF] at h
        by_cases hU : c = 'U' ∨ c = 'u'
        · rw [if_pos hU] at h
          rw [← Option.some_injective _ h]
          intro _
          rfl
        · rw [if_neg hU] at h
          cases h

theorem processSections_append : ∀ (ss1 ss2 : List (List Char)) (ms : List Monitor),
    processSections ms (ss1 ++ ss2) =
      (processSections ms ss1).bind (fun m1 => processSections m1 ss2)
  | [], _, _ => rfl
  | s :: ss1, ss2, ms => by
    simp only [List.cons_append, processSections]
    cases hps : processSection ms s with
    | none => simp
    | some m1 => simpa using processSections_append ss1 ss2 m1

theorem getLast?_cons_of_ne_nil {α : Type} (a : α) (l : List α) (h : l ≠ []) :
    (a :: l).getLast? = l.getLast? := by
  obtain ⟨b, t, rfl⟩ := List.exists_cons_of_ne_nil h
  exact List.getLast?_cons_cons

theorem splitColon_ne_nil : ∀ cs : List Char, splitColon cs ≠ []
  | [] => by simp [splitColon]
  | c :: cs => by
    rw [splitColon]
    by_cases hc : c = ':'
    · simp [hc]
    · rw [if_neg hc]
      cases splitColon cs <;> simp

/-- The last character of the split input ends the last section: if the
last character of `cs` is not a colon, then the last section produced by
`splitColon cs` ends with that same character. -/
theorem splitColon_getLast : ∀ (cs : List Char) (c0 : Char),
    cs.getLast? = some c0 → c0 ≠ ':' →
    ∃ t, (splitColon cs).getLast? = some t ∧ t.getLast? = some c0
  | [], _, h, _ => by cases h
  | c1 :: rest, c0, h, hne => by
    cases rest with
    | nil =>
      obtain rfl : c1 = c0 := by simpa using h
      refine ⟨[c1], ?_, by simp⟩
      simp [splitColon, hne]
    | cons c2 rest2 =>
      rw [List.getLast?_cons_cons] at h
      obtain ⟨t, ht1, ht2⟩ := splitColon_getLast (c2 :: rest2) c0 h hne
      by_cases hc : c1 = ':'
      · refine ⟨t, ?_, ht2⟩
        rw [splitColon, if_pos hc, getLast?_cons_of_ne_nil _ _ (splitColon_ne_nil _)]
        exact ht1
      · cases hsc : splitColon (c2 :: rest2) with
        | nil => exact absurd hsc (splitColon_ne_nil _)
        | cons t1 ts =>
          have hsplit : splitColon (c1 :: c2 :: rest2) = (c1 :: t1) :: ts := by
            rw [splitColon, if_neg hc, hsc]
          cases ts with
          | nil =>
            rw [hsc] at ht1
            obtain rfl : t1 = t := by simpa using ht1
            have ht1ne : t1 ≠ [] := by
              intro hh
              rw [hh] at ht2
              cases ht2
            refine ⟨c1 :: t1, ?_, ?_⟩
            · rw [hsplit]
              rfl
            · rw [getLast?_cons_of_ne_nil _ _ ht1ne]
              exact ht2
          | cons t2 ts2 =>
            rw [hsc, List.getLast?_cons_cons] at ht1
            refine ⟨t, ?_, ht2⟩
            rw [hsplit, List.getLast?_cons_cons]
            exact ht1

theorem modifyLast_push_getLast (d0 : Desktop) (ms ms2 : List Monitor)
    (h : modifyLast (fun m => { m with desktops := m.desktops ++ [d0] }) ms = some ms2) :
    ∃ mon, ms2.getLast? = some mon ∧ mon.desktops.getLast? = some d0 := by
  obtain ⟨l, a, rfl, rfl⟩ := modifyLast_some _ ms ms2 h
  refine ⟨_, List.getLast?_concat _, ?_⟩
  simp

theorem sectionDesktop_name (c : Char) (p : List Char) (d : Desktop)
    (h : sectionDesktop (c :: p) = some d) : d.name = String.mk p := by
  simp only [sectionDesktop] at h
  by_cases hO : c = 'O' ∨ c = 'o'
  · rw [if_pos hO] at h
    rw [← Option.some_injective _ h]
  · rw [if_neg hO] at h
    by_cases hF : c = 'F' ∨ c = 'f'
    · rw [if_pos hF] at h
      rw [← Option.some_injective _ h]
    · rw [if_neg hF] at h
      by_cases hU : c = 'U' ∨ c = 'u'
      · rw [if_pos hU] at h
        rw [← Option.some_injective _ h]
      · rw [if_neg hU] at h
        cases h

theorem sectionDesktop_isSome_of_marker (c : Char) (p : List Char)
    (hc : c = 'O' ∨ c = 'o' ∨ c = 'F' ∨ c = 'f' ∨ c = 'U' ∨ c = 'u') :
    sectionDesktop (c :: p) ≠ none := by
  rcases hc with rfl | rfl | rfl | rfl | rfl | rfl <;>
    exact fun h => Option.noConfusion h

/-! ## Theorems -/

/-- C1: the claim says a desktop marker before any monitor marker yields a
recoverable `ParseError` value.  The code instead panics: on the line
`"Wo1"` the section `"o1"` is a desktop marker with no prior monitor, so
`monitors.last_mut().unwrap()` unwraps `None` and the process aborts,
modelled here by `parse_line` returning `none` (no value of any kind is
returned to the caller). -/
theorem C1_orphan_desktop_panics : parse_line "Wo1" = none := by decide

/-- C2 counterexample: parsing `"WM1:O1:F2:Ff3:LT"` does not produce the
snapshot the claim describes (monitor focused = false, desktops all
unfocused, third desktop named `"3"`). -/
theorem C2_counterexample :
    parse_line "WM1:O1:F2:Ff3:LT" ≠
      some (WmRoot.mk [Monitor.mk "1"
        [Desktop.mk "1" false true false,
         Desktop.mk "2" false false false,
         Desktop.mk "3" false false false]
        false (some Layout.Tiling)]) := by decide

/-- C2 amended: parsing `"WM1:O1:F2:Ff3:LT"` yields exactly one monitor
named `"1"`, focused (marker `M` is uppercase), layout Tiling, with the
desktops `{name="1", occupied, focused}`, `{name="2", free, focused}` and
`{name="f3", free, focused}` in this order (the third section is `Ff3`:
marker `F`, payload `f3`). -/
theorem C2_parse_example :
    parse_line "WM1:O1:F2:Ff3:LT" =
      some (WmRoot.mk [Monitor.mk "1"
        [Desktop.mk "1" true true false,
         Desktop.mk "2" true false false,
         Desktop.mk "f3" true false false]
        true (some Layout.Tiling)]) := by decide

/-- C3 counterexample: a section beginning with lowercase `l` does not have
the same effect as one beginning with uppercase `L`: on `"Wm1:lT"` the
layout stays unset while on `"Wm1:LT"` it becomes Tiling. -/
theorem C3_counterexample : parse_line "Wm1:lT" ≠ parse_line "Wm1:LT" := by decide

/-- C3 amended: the layout marker is case-sensitive: only uppercase `L` is
matched by the layout arm; a section beginning with lowercase `l` falls into
the catch-all arm and is silently ignored, leaving the monitor list (and in
particular the current monitor's layout) unchanged. -/
theorem C3_lowercase_l_ignored (ms : List Monitor) (p : List Char) :
    processSection ms ('l' :: p) = some ms := by
  simp [processSection]

/-- C4: the claim says a line consisting of only the sentinel character
parses to a snapshot with an empty monitor list.  The code instead panics:
on `"W"` the remainder `""` splits into the single empty section `""`, and
`section.chars().nth(0).unwrap()` unwraps `None`, modelled here by
`parse_line` returning `none`. -/
theorem C4_sentinel_only_panics : parse_line "W" = none := by decide

/-- C5: the claim says a layout section never makes the parse fail, the
empty payload included.  The code instead panics on an empty layout payload:
on `"WM1:L"` the slice `&section[1..2]` of the section `"L"` is out of
bounds, modelled here by `parse_line` returning `none`. -/
theorem C5_empty_layout_payload_panics : parse_line "WM1:L" = none := by decide

/-- C6: for every desktop in every snapshot that `parse_line` produces,
`urgent = true` implies `occupied = true`: the `F`/`f` arm sets
`urgent := false` and the `O`/`o` and `U`/`u` arms set `occupied := true`,
so the parser never produces an urgent unoccupied desktop, for any input
line. -/
theorem C6_urgent_implies_occupied (line : String) (root : WmRoot)
    (h : parse_line line = some root) :
    ∀ m ∈ root.monitors, ∀ d ∈ m.desktops, d.urgent = true → d.occupied = true := by
  intro m hm d hd hu
  have heq := processSections_desktops _ _ _ (parse_line_some line root h)
  simp only [List.map_nil] at heq
  rw [show extendLast [] ((groupsAux (splitColon line.data.tail)).1.filterMap sectionDesktop)
      = [] from rfl, List.nil_append] at heq
  have hmem : m.desktops ∈ root.monitors.map Monitor.desktops :=
    List.mem_map_of_mem _ hm
  rw [heq] at hmem
  obtain ⟨g, _, hg⟩ := List.mem_map.mp hmem
  rw [← hg] at hd
  obtain ⟨s, _, hs⟩ := List.mem_filterMap.mp hd
  exact sectionDesktop_urgent s d hs hu

/-- Witness for C6 at the concrete line `"WM1:U2"`: the urgent desktop
`"2"` the parser produces there is occupied. -/
theorem C6_witness : (Desktop.mk "2" true true true).occupied = true :=
  C6_urgent_implies_occupied "WM1:U2"
    (WmRoot.mk [Monitor.mk "1" [Desktop.mk "2" true true true] true none])
    (by decide)
    (Monitor.mk "1" [Desktop.mk "2" true true true] true none) (by decide)
    (Desktop.mk "2" true true true) (by decide) (by decide)

/-- C7: on every line on which `parse_line` succeeds, the number of
monitors in the snapshot equals the number of sections of the line (after
the sentinel character is discarded) whose first character is `M` or
`m`. -/
theorem C7_monitor_count (line : String) (root : WmRoot)
    (h : parse_line line = some root) :
    root.monitors.length = (splitColon line.data.tail).countP monitorMarker := by
  simpa using processSections_length (splitColon line.data.tail) [] root.monitors
    (parse_line_some line root h)

/-- Witness for C7 at the concrete line `"WM1:O2:m3"`: two monitors, two
monitor-marker sections. -/
theorem C7_witness :
    (WmRoot.mk [Monitor.mk "1" [Desktop.mk "2" true true false] true none,
      Monitor.mk "3" [] false none]).monitors.length =
      (splitColon "WM1:O2:m3".data.tail).countP monitorMarker :=
  C7_monitor_count "WM1:O2:m3"
    (WmRoot.mk [Monitor.mk "1" [Desktop.mk "2" true true false] true none,
      Monitor.mk "3" [] false none])
    (by decide)

/-- C9: on every line on which `parse_line` succeeds, the desktop lists of
the monitors are exactly, monitor by monitor and in order, the desktops
denoted by the desktop-marker sections lying strictly between that
monitor's marker section and the next monitor-marker section (or the end
of the line); in particular no desktop section is attached to any monitor
other than the most recently appended one. -/
theorem C9_desktop_grouping (line : String) (root : WmRoot)
    (h : parse_line line = some root) :
    root.monitors.map Monitor.desktops =
      (groupsAux (splitColon line.data.tail)).2.map
        (fun g => g.filterMap sectionDesktop) := by
  have heq := processSections_desktops _ _ _ (parse_line_some line root h)
  simpa [extendLast] using heq

/-- Witness for C9 at the concrete line `"WM1:O2:m3:f4"`: desktop `"2"`
belongs to monitor `"1"` and desktop `"4"` to monitor `"3"`. -/
theorem C9_witness :
    (WmRoot.mk [Monitor.mk "1" [Desktop.mk "2" true true false] true none,
      Monitor.mk "3" [Desktop.mk "4" false false false] false none]).monitors.map
        Monitor.desktops =
      (groupsAux (splitColon "WM1:O2:m3:f4".data.tail)).2.map
        (fun g => g.filterMap sectionDesktop) :=
  C9_desktop_grouping "WM1:O2:m3:f4"
    (WmRoot.mk [Monitor.mk "1" [Desktop.mk "2" true true false] true none,
      Monitor.mk "3" [Desktop.mk "4" false false false] false none])
    (by decide)

/-- C8: for each of the marker characters `M`/`m`, `O`/`o`, `F`/`f`,
`U`/`u`, the monitor or desktop that the corresponding loop arm appends
carries `focused = true` exactly for the uppercase marker and
`focused = false` exactly for the lowercase one (the payload becoming the
name, whatever the prior state `ms`). -/
theorem C8_marker_case_focus (ms : List Monitor) (p : List Char) :
    (processSection ms ('M' :: p) =
        some (ms ++ [Monitor.mk (String.mk p) [] true none])
      ∧ processSection ms ('m' :: p) =
        some (ms ++ [Monitor.mk (String.mk p) [] false none]))
    ∧ (processSection ms ('O' :: p) =
        modifyLast (fun m => { m with desktops :=
          m.desktops ++ [Desktop.mk (String.mk p) true true false] }) ms
      ∧ processSection ms ('o' :: p) =
        modifyLast (fun m => { m with desktops :=
          m.desktops ++ [Desktop.mk (String.mk p) false true false] }) ms)
    ∧ (processSection ms ('F' :: p) =
        modifyLast (fun m => { m with desktops :=
          m.desktops ++ [Desktop.mk (String.mk p) true false false] }) ms
      ∧ processSection ms ('f' :: p) =
        modifyLast (fun m => { m with desktops :=
          m.desktops ++ [Desktop.mk (String.mk p) false false false] }) ms)
    ∧ (processSection ms ('U' :: p) =
        modifyLast (fun m => { m with desktops :=
          m.desktops ++ [Desktop.mk (String.mk p) true true true] }) ms
      ∧ processSection ms ('u' :: p) =
        modifyLast (fun m => { m with desktops :=
          m.desktops ++ [Desktop.mk (String.mk p) false true true] }) ms) :=
  ⟨⟨rfl, rfl⟩, ⟨rfl, rfl⟩, ⟨rfl, rfl⟩, ⟨rfl, rfl⟩⟩

/-- C10: `next()` hands the raw `read_line` buffer to `parse_line` without
stripping the line terminator, so when a parsed buffer ends in a newline
and its final section is a name-carrying marker section
(`M`/`m`/`O`/`o`/`F`/`f`/`U`/`u` with payload `p`), the stored name
`String.mk p` still ends with the newline character: it is the name of the
last monitor for a monitor marker, and the name of the last desktop of the
last monitor for a desktop marker. -/
theorem C10_trailing_newline (buf : String) (root : WmRoot) (c : Char) (p : List Char)
    (hnext : wmNext (some buf) = NextResult.item (some root))
    (hlast : (splitColon buf.data.tail).getLast? = some (c :: p))
    (hend : buf.data.getLast? = some '\n')
    (hc : c = 'M' ∨ c = 'm' ∨ c = 'O' ∨ c = 'o' ∨ c = 'F' ∨ c = 'f' ∨ c = 'U' ∨ c = 'u') :
    p.getLast? = some '\n' ∧
    ((c = 'M' ∨ c = 'm') →
      (root.monitors.getLast?).map Monitor.name = some (String.mk p)) ∧
    (¬(c = 'M' ∨ c = 'm') →
      ∃ mon, root.monitors.getLast? = some mon ∧
        (mon.desktops.getLast?).map Desktop.name = some (String.mk p)) := by
  have hparse : parse_line buf = some root := by
    simp only [wmNext] at hnext
    by_cases hb : buf.length > 0
    · rw [if_pos hb] at hnext
      injection hnext
    · rw [if_neg hb] at hnext
      cases hnext
  have hps := parse_line_some buf root hparse
  cases hdata : buf.data with
  | nil =>
    rw [hdata] at hend
    cases hend
  | cons ch rest =>
    rw [hdata] at hend hps hlast
    simp only [List.tail_cons] at hps hlast
    have hrestne : rest ≠ [] := by
      intro hre
      rw [hre] at hlast
      simp [splitColon] at hlast
    rw [getLast?_cons_of_ne_nil _ _ hrestne] at hend
    obtain ⟨t, ht1, ht2⟩ := splitColon_getLast rest '\n' hend (by decide)
    rw [hlast] at ht1
    obtain rfl : c :: p = t := Option.some_injective _ ht1
    have hcne : c ≠ '\n' := by
      rcases hc with rfl | rfl | rfl | rfl | rfl | rfl | rfl | rfl <;> decide
    have hpne : p ≠ [] := by
      intro hp
      rw [hp] at ht2
      simp at ht2
      exact hcne ht2
    have hplast : p.getLast? = some '\n' := by
      rw [getLast?_cons_of_ne_nil _ _ hpne] at ht2
      exact ht2
    obtain ⟨ss0, hss0⟩ := List.getLast?_eq_some_iff.mp hlast
    rw [hss0, processSections_append] at hps
    cases hps1 : processSections [] ss0 with
    | none =>
      rw [hps1] at hps
      cases hps
    | some ms1 =>
      rw [hps1] at hps
      simp only [Option.some_bind] at hps
      rw [processSections] at hps
      cases hsec : processSection ms1 (c :: p) with
      | none =>
        rw [hsec] at hps
        cases hps
      | some m2 =>
        rw [hsec] at hps
        have hm2 : m2 = root.monitors := by simpa [processSections] using hps
        subst hm2
        refine ⟨hplast, ?_, ?_⟩
        · intro hMm
          rcases processSection_cases ms1 root.monitors c p hsec with
            ⟨_, hms⟩ | ⟨hmark, _, _, _⟩ | ⟨hmark, _, _⟩ | ⟨hmark, _, _⟩
          · rw [hms]
            simp [List.getLast?_concat]
          all_goals {
            rcases hMm with rfl | rfl <;> simp [monitorMarker] at hmark }
        · intro hnMm
          have hc6 : c = 'O' ∨ c = 'o' ∨ c = 'F' ∨ c = 'f' ∨ c = 'U' ∨ c = 'u' := by
            tauto
          rcases processSection_cases ms1 root.monitors c p hsec with
            ⟨hmark, _⟩ | ⟨_, d0, hsd, hml⟩ | ⟨_, hsd, _⟩ | ⟨_, hsd, _⟩
          · simp only [monitorMarker, List.head?_cons, Bool.or_eq_true, beq_iff_eq,
              Option.some.injEq] at hmark
            exact absurd hmark hnMm
          · obtain ⟨mon, hg1, hg2⟩ := modifyLast_push_getLast d0 ms1 _ hml
            refine ⟨mon, hg1, ?_⟩
            rw [hg2]
            simp [sectionDesktop_name c p d0 hsd]
          · exact absurd hsd (sectionDesktop_isSome_of_marker c p hc6)
          · exact absurd hsd (sectionDesktop_isSome_of_marker c p hc6)

/-- Witness for C10 at the concrete buffer `"WM1:o2\n"` (final section
`o2\n`): the last desktop's payload name keeps the trailing newline. -/
theorem C10_witness : (['2', '\n'] : List Char).getLast? = some '\n' :=
  (C10_trailing_newline "WM1:o2\n"
    (WmRoot.mk [Monitor.mk "1" [Desktop.mk "2\n" false true false] true none])
    'o' ['2', '\n'] (by decide) (by decide) (by decide) (by decide)).1
